import Mathlib

/-!
Shallow embedding of the CPET Monte Carlo field-line sampling core
(`src/System.cpp`, `include/PathSample.h`).  `double` is modelled as `ℝ`
and `Eigen::Vector3d` as a record of three reals; real division by zero
is total (`x / 0 = 0`) as usual in this embedding.
-/

namespace CPET

/-- Model of `Eigen::Vector3d`: a 3-vector of reals. -/
@[ext]
structure V3 where
  x : ℝ
  y : ℝ
  z : ℝ

instance : Zero V3 := ⟨⟨0, 0, 0⟩⟩

instance : Add V3 := ⟨fun a b => ⟨a.x + b.x, a.y + b.y, a.z + b.z⟩⟩

instance : Sub V3 := ⟨fun a b => ⟨a.x - b.x, a.y - b.y, a.z - b.z⟩⟩

instance : SMul ℝ V3 := ⟨fun c v => ⟨c * v.x, c * v.y, c * v.z⟩⟩

@[simp]
theorem V3.zero_x : (0 : V3).x = 0 := rfl

@[simp]
theorem V3.zero_y : (0 : V3).y = 0 := rfl

@[simp]
theorem V3.zero_z : (0 : V3).z = 0 := rfl

@[simp]
theorem V3.add_x (a b : V3) : (a + b).x = a.x + b.x := rfl

@[simp]
theorem V3.add_y (a b : V3) : (a + b).y = a.y + b.y := rfl

@[simp]
theorem V3.add_z (a b : V3) : (a + b).z = a.z + b.z := rfl

@[simp]
theorem V3.sub_x (a b : V3) : (a - b).x = a.x - b.x := rfl

@[simp]
theorem V3.sub_y (a b : V3) : (a - b).y = a.y - b.y := rfl

@[simp]
theorem V3.sub_z (a b : V3) : (a - b).z = a.z - b.z := rfl

@[simp]
theorem V3.smul_x (c : ℝ) (v : V3) : (c • v).x = c * v.x := rfl

@[simp]
theorem V3.smul_y (c : ℝ) (v : V3) : (c • v).y = c * v.y := rfl

@[simp]
theorem V3.smul_z (c : ℝ) (v : V3) : (c • v).z = c * v.z := rfl

/-- Squared Euclidean length of a 3-vector. -/
def V3.norm2 (v : V3) : ℝ := v.x ^ 2 + v.y ^ 2 + v.z ^ 2

/-- Eigen's `.norm()`: Euclidean length. -/
noncomputable def V3.norm (v : V3) : ℝ := Real.sqrt v.norm2

/-- Eigen's `.cross()`: the 3-dimensional cross product. -/
def V3.cross (a b : V3) : V3 :=
  ⟨a.y * b.z - a.z * b.y, a.z * b.x - a.x * b.z, a.x * b.y - a.y * b.x⟩

/-- Eigen's componentwise division of a vector by a scalar. -/
noncomputable def V3.vdiv (v : V3) (s : ℝ) : V3 := ⟨v.x / s, v.y / s, v.z / s⟩

@[simp]
theorem V3.vdiv_x (v : V3) (s : ℝ) : (v.vdiv s).x = v.x / s := rfl

@[simp]
theorem V3.vdiv_y (v : V3) (s : ℝ) : (v.vdiv s).y = v.y / s := rfl

@[simp]
theorem V3.vdiv_z (v : V3) (s : ℝ) : (v.vdiv s).z = v.z / s := rfl

theorem V3.norm2_nonneg (v : V3) : 0 ≤ v.norm2 := by
  unfold V3.norm2; positivity

theorem V3.norm_nonneg (v : V3) : 0 ≤ v.norm := Real.sqrt_nonneg _

theorem V3.norm2_eq_zero_iff (v : V3) : v.norm2 = 0 ↔ v = 0 := by
  constructor
  · intro h
    unfold V3.norm2 at h
    have hxy : v.x ^ 2 + v.y ^ 2 = 0 ∧ v.z ^ 2 = 0 :=
      (add_eq_zero_iff_of_nonneg (by positivity) (sq_nonneg v.z)).mp h
    have hx : v.x ^ 2 = 0 ∧ v.y ^ 2 = 0 :=
      (add_eq_zero_iff_of_nonneg (sq_nonneg v.x) (sq_nonneg v.y)).mp hxy.1
    ext
    · exact pow_eq_zero_iff two_ne_zero |>.mp hx.1
    · exact pow_eq_zero_iff two_ne_zero |>.mp hx.2
    · exact pow_eq_zero_iff two_ne_zero |>.mp hxy.2
  · intro h; subst h; simp [V3.norm2]

theorem V3.norm_pos_of_ne_zero {v : V3} (h : v ≠ 0) : 0 < v.norm := by
  have h2 : 0 < v.norm2 := by
    rcases lt_or_eq_of_le (V3.norm2_nonneg v) with hlt | heq
    · exact hlt
    · exact absurd ((V3.norm2_eq_zero_iff v).mp heq.symm) h
  exact Real.sqrt_pos.mpr h2

theorem V3.norm_smul_of_nonneg {c : ℝ} (hc : 0 ≤ c) (v : V3) :
    (c • v).norm = c * v.norm := by
  unfold V3.norm V3.norm2
  have : (c • v).x ^ 2 + (c • v).y ^ 2 + (c • v).z ^ 2
      = c ^ 2 * (v.x ^ 2 + v.y ^ 2 + v.z ^ 2) := by
    simp; ring
  rw [this, Real.sqrt_mul (by positivity), Real.sqrt_sq hc]

/-- `#define PERM_SPACE 0.0055263495` -/
def PERM_SPACE : ℝ := 0.0055263495

/-- `PointCharge`: a fixed coordinate carrying a charge. -/
structure PointCharge where
  coordinate : V3
  charge : ℝ

/-- One term of the superposition loop body in `System::electricField`:
`(pc.charge * d) / (dNorm * dNorm * dNorm)` with `d = position - pc.coordinate`. -/
noncomputable def fieldTerm (position : V3) (pc : PointCharge) : V3 :=
  let d := position - pc.coordinate
  let dNorm := V3.norm d
  (pc.charge • d).vdiv (dNorm * dNorm * dNorm)

/-- The accumulated `result` of the loop in `System::electricField`. -/
noncomputable def coulombSum (pointCharges : List PointCharge) (position : V3) : V3 :=
  pointCharges.foldl (fun result pc => result + fieldTerm position pc) 0

/-- `System::electricField`: the superposed Coulomb terms followed by
`result /= (1.0 / (4.0 * M_PI * PERM_SPACE))`. -/
noncomputable def electricField (pointCharges : List PointCharge) (position : V3) : V3 :=
  (coulombSum pointCharges position).vdiv (1 / (4 * Real.pi * PERM_SPACE))

/-- The field operation as the spec words it (§4.1): the same superposition
sum scaled by the constant `k = 1/(4π·ε)`, i.e. multiplied by `k`. -/
noncomputable def specField (pointCharges : List PointCharge) (position : V3) : V3 :=
  (1 / (4 * Real.pi * PERM_SPACE)) • coulombSum pointCharges position

/-- `cpet::PathSample`: the two recorded statistics of one traced path. -/
structure PathSample where
  distance : ℝ
  curvature : ℝ

open scoped Classical in
/-- One test-and-step of the loop of `System::_sample`:
`while (_region->isInside(finalPosition) && ++steps < maxSteps) finalPosition = _next(finalPosition);`.
`inside` abstracts `_region->isInside` and `next` abstracts `System::_next`;
both guard conjuncts are tested verbatim in the body.  `fuel` only bounds
the recursion depth: the guard fails as soon as `steps + 1 ≥ maxSteps`, so
any `fuel > (maxSteps - steps).toNat` is never exhausted (the `0` case is
unreachable from `sampleLoop` below).  Returns the final position, the
final value of `steps` (pre-incremented on every test whose first conjunct
held), and the number of times the body ran. -/
noncomputable def sampleLoopGo (inside : V3 → Prop) (next : V3 → V3) (maxSteps : ℤ) :
    ℕ → ℤ → V3 → V3 × ℤ × ℕ
  | 0, steps, p => (p, steps, 0)
  | fuel + 1, steps, p =>
    if inside p then
      if steps + 1 < maxSteps then
        let r := sampleLoopGo inside next maxSteps fuel (steps + 1) (next p)
        (r.1, r.2.1, r.2.2 + 1)
      else (p, steps + 1, 0)
    else (p, steps, 0)

/-- The integration loop of `System::_sample`, entered with counter value
`steps`: runs `sampleLoopGo` with enough fuel for every iteration the
guard can admit. -/
noncomputable def sampleLoop (inside : V3 → Prop) (next : V3 → V3)
    (maxSteps : ℤ) (steps : ℤ) (p : V3) : V3 × ℤ × ℕ :=
  sampleLoopGo inside next maxSteps ((maxSteps - steps).toNat + 1) steps p

/-- `System::_sample`, given its two random draws: the step bound
`maxSteps` (from `_randomDistance()`) and the start point
`initialPosition` (from `_region->randomPoint()`).
`curv` abstracts `System::_curvature`. -/
noncomputable def traceSample (inside : V3 → Prop) (next : V3 → V3) (curv : V3 → ℝ)
    (maxSteps : ℤ) (initialPosition : V3) : PathSample :=
  let finalPosition := (sampleLoop inside next maxSteps 0 initialPosition).1
  ⟨(finalPosition - initialPosition).norm,
    (curv finalPosition + curv initialPosition) / 2⟩

/-- Modelled from the spec: `System::_next` is declared in `System.h`,
which is not under `src/`; §4.3 specifies
`advance(point) = point + stepLength * field(point)/‖field(point)‖`
with `stepLength` an external configuration constant. -/
noncomputable def advance (pointCharges : List PointCharge) (stepLength : ℝ) (point : V3) : V3 :=
  point +
    stepLength • ((electricField pointCharges point).vdiv (electricField pointCharges point).norm)

/-- `System::_curvature` at `alpha_0`, with the call to `System::_next`
given by `advance` (modelled from the spec, see `advance`). -/
noncomputable def curvature (pointCharges : List PointCharge) (stepLength : ℝ) (alpha_0 : V3) : ℝ :=
  let alpha_prime := electricField pointCharges alpha_0
  let alpha_1 := advance pointCharges stepLength alpha_0
  let delta_t := (alpha_1 - alpha_0).norm / alpha_prime.norm
  let alpha_prime_prime := (electricField pointCharges alpha_1 - alpha_prime).vdiv delta_t
  (alpha_prime.cross alpha_prime_prime).norm
    / (alpha_prime.norm * alpha_prime.norm * alpha_prime.norm)

/-- The `while (samples-- > 0) sampleResults.push_back(_sample());` loop of
the serial branch of `System::calculateTopology`.  The counter `samples`
is a `size_t`, so the loop runs exactly its initial value many times;
`sample i` stands for the result of the `i`-th `_sample()` call
(a function of that call's random draws). -/
def serialGather (sample : ℕ → PathSample) : ℕ → ℕ → List PathSample → List PathSample
  | 0, _, acc => acc
  | n + 1, i, acc => serialGather sample n (i + 1) (acc ++ [sample i])

/-- `System::calculateTopology` with `procs == 1`: `sampleResults` is
constructed pre-sized to `_numberOfSamples` (that many value-initialized
elements, i.e. `{0, 0}`), then the serial loop appends to it. -/
def calculateTopologySerial (numberOfSamples : ℕ) (sample : ℕ → PathSample) : List PathSample :=
  serialGather sample numberOfSamples 0 (List.replicate numberOfSamples ⟨0, 0⟩)

/-- `System::calculateTopology` with `procs > 1`, as a relation on
possible outcomes: `shared_vector` is constructed pre-sized to
`_numberOfSamples` value-initialized elements; across all workers the
atomic `while (samples-- > 0)` claims each positive counter value exactly
once, so exactly `_numberOfSamples` `_sample()` results are appended
under the lock, in some interleaving order; the shared vector is then
copied out and returned. -/
def parallelOutcome (numberOfSamples : ℕ) (res : List PathSample) : Prop :=
  ∃ pushed : List PathSample,
    pushed.length = numberOfSamples ∧
    res = List.replicate numberOfSamples ⟨0, 0⟩ ++ pushed

/-- The region variants `_loadOptions` can construct: only `Box`, from a
`volume box dx dy dz` line. -/
inductive Region
  | box (d0 d1 d2 : ℝ)

/-- A line of the options file after the out-of-scope fixed-column text
parsing (§1, §6: parsing belongs to a collaborator; unknown lines are
ignored).  `other` covers unrecognized lines and `volume` lines whose
first token is not `box`. -/
inductive OptionLine
  | center (v : V3)
  | v1 (v : V3)
  | v2 (v : V3)
  | volumeBox (d0 d1 d2 : ℝ)
  | sample (n : ℤ)
  | other

/-- The 3×3 `_basisMatrix`, stored by columns. -/
structure Basis3 where
  col0 : V3
  col1 : V3
  col2 : V3

/-- The `System` members written by `_loadOptions`. -/
structure OptionsState where
  center : V3
  basisMatrix : Basis3
  region : Option Region
  numberOfSamples : ℤ

/-- Member state at entry of `_loadOptions`, from the constructor's
initializer list: `_basisMatrix` is the identity, `_region` null,
`_numberOfSamples` 0.  (`_center()` is default-constructed; it is
modelled as the zero vector — no claim depends on it.) -/
def initialOptionsState : OptionsState where
  center := 0
  basisMatrix := ⟨⟨1, 0, 0⟩, ⟨0, 1, 0⟩, ⟨0, 0, 1⟩⟩
  region := none
  numberOfSamples := 0

/-- The body of the `forEachLineIn` callback in `System::_loadOptions`. -/
def applyOptionLine (s : OptionsState) : OptionLine → OptionsState
  | .center v => { s with center := v }
  | .v1 v => { s with basisMatrix := { s.basisMatrix with col0 := v } }
  | .v2 v => { s with basisMatrix := { s.basisMatrix with col1 := v } }
  | .volumeBox d0 d1 d2 => { s with region := some (.box d0 d1 d2) }
  | .sample n => { s with numberOfSamples := n }
  | .other => s

/-- `System::_loadOptions`: fold the callback over the file's lines, then
`_basisMatrix.block(0, 2, 3, 1) = _basisMatrix.col(0).cross(_basisMatrix.col(1))`. -/
def loadOptions (lines : List OptionLine) : OptionsState :=
  let s := lines.foldl applyOptionLine initialOptionsState
  { s with
    basisMatrix :=
      { s.basisMatrix with col2 := s.basisMatrix.col0.cross s.basisMatrix.col1 } }

/-- The `System` constructor after its out-of-scope file parsing:
`_loadOptions(optionsFile)` yields the folded options state; `throw` if
`_region == nullptr`; `_loadPDB(proteinFile)` yields `pointCharges` (the
parsed ATOM/HETATM records); `throw` if `_pointCharges.empty()`.  The
final `_translateToCenter` and `_toUserBasis` are declared in `System.h`
(not under `src/`); per the spec (§3, §7) they are total coordinate
rewrites and introduce no failure, so the loaded members are returned. -/
def systemConstruct (lines : List OptionLine) (pointCharges : List PointCharge) :
    Except Unit (OptionsState × List PointCharge) :=
  let s := loadOptions lines
  if s.region.isNone then Except.error ()
  else if pointCharges.isEmpty then Except.error ()
  else Except.ok (s, pointCharges)

/-- One item written to a `std::ostream`. -/
inductive StreamItem
  | num (value : ℝ)
  | ch (c : Char)

/-- `os << (double)` -/
def writeDouble (os : List StreamItem) (value : ℝ) : List StreamItem :=
  os ++ [StreamItem.num value]

/-- `os << (char)` -/
def writeChar (os : List StreamItem) (c : Char) : List StreamItem :=
  os ++ [StreamItem.ch c]

/-- `operator<<(std::ostream& os, const PathSample& ps)` from
`PathSample.h`: `os << ps.distance << ',' << ps.curvature; return os;`.
The sample is taken by const reference and never written. -/
def pathSampleShift (os : List StreamItem) (ps : PathSample) : List StreamItem :=
  writeDouble (writeChar (writeDouble os ps.distance) ',') ps.curvature

/-- The charge set of testable property 7: a single `+1` charge at the
origin. -/
def unitCharge : List PointCharge := [{ coordinate := 0, charge := 1 }]

/-- Modelled from the spec: `Box::isInside` for `Box(10,10,10)` (the `Box`
volume class is declared outside `src/`); §4.2:
`isInside(p) ⇔ |p.x| ≤ dx/2 ∧ |p.y| ≤ dy/2 ∧ |p.z| ≤ dz/2`. -/
def boxInside (p : V3) : Prop := |p.x| ≤ 5 ∧ |p.y| ≤ 5 ∧ |p.z| ≤ 5

/- ======================  theorems  ====================== -/

theorem V3.zero_add_left (v : V3) : (0 : V3) + v = v := by
  ext <;> simp

theorem V3.sub_zero_right (v : V3) : v - (0 : V3) = v := by
  ext <;> simp

theorem V3.smul_ne_zero_iff {c : ℝ} (hc : c ≠ 0) {v : V3} (hv : v ≠ 0) : c • v ≠ 0 := by
  intro h
  apply hv
  have hx := congrArg V3.x h
  have hy := congrArg V3.y h
  have hz := congrArg V3.z h
  simp only [V3.smul_x, V3.smul_y, V3.smul_z, V3.zero_x, V3.zero_y, V3.zero_z,
    mul_eq_zero] at hx hy hz
  ext
  · exact hx.resolve_left hc
  · exact hy.resolve_left hc
  · exact hz.resolve_left hc

theorem kappa_pos : 0 < 4 * Real.pi * PERM_SPACE := by
  have hπ := Real.pi_pos
  have hε : (0 : ℝ) < PERM_SPACE := by unfold PERM_SPACE; norm_num
  positivity

theorem kappa_lt_one : 4 * Real.pi * PERM_SPACE < 1 := by
  have hπ : Real.pi < 3.15 := Real.pi_lt_d2
  have hε : (0 : ℝ) < PERM_SPACE := by unfold PERM_SPACE; norm_num
  calc 4 * Real.pi * PERM_SPACE < 4 * 3.15 * PERM_SPACE := by
        apply mul_lt_mul_of_pos_right _ hε
        linarith
    _ < 1 := by unfold PERM_SPACE; norm_num

theorem coulombSum_singleCharge (q : ℝ) (p : V3) :
    coulombSum [{ coordinate := 0, charge := q }] p
      = (q • p).vdiv (p.norm * p.norm * p.norm) := by
  simp [coulombSum, fieldTerm, V3.zero_add_left, V3.sub_zero_right]

theorem electricField_singleCharge (q : ℝ) (p : V3) :
    electricField [{ coordinate := 0, charge := q }] p
      = ((q • p).vdiv (p.norm * p.norm * p.norm)).vdiv (1 / (4 * Real.pi * PERM_SPACE)) := by
  rw [electricField, coulombSum_singleCharge]

theorem electricField_singleCharge_smul (q : ℝ) (p : V3) :
    electricField [{ coordinate := 0, charge := q }] p
      = (4 * Real.pi * PERM_SPACE * q / (p.norm * p.norm * p.norm)) • p := by
  rw [electricField_singleCharge]
  ext <;>
    simp only [V3.vdiv_x, V3.vdiv_y, V3.vdiv_z, V3.smul_x, V3.smul_y, V3.smul_z,
      one_div, div_inv_eq_mul] <;>
    ring

theorem norm_ex_one : V3.norm ⟨1, 0, 0⟩ = 1 := by
  simp [V3.norm, V3.norm2]

theorem electricField_unitCharge_ex :
    electricField unitCharge ⟨1, 0, 0⟩ = ⟨4 * Real.pi * PERM_SPACE, 0, 0⟩ := by
  rw [show unitCharge = [{ coordinate := 0, charge := 1 }] from rfl,
    electricField_singleCharge_smul, norm_ex_one]
  ext <;> simp

theorem specField_unitCharge_ex :
    specField unitCharge ⟨1, 0, 0⟩ = ⟨1 / (4 * Real.pi * PERM_SPACE), 0, 0⟩ := by
  rw [specField, show unitCharge = [{ coordinate := 0, charge := 1 }] from rfl,
    coulombSum_singleCharge, norm_ex_one]
  ext <;> simp

theorem electricField_unitCharge_ex_ne_zero : electricField unitCharge ⟨1, 0, 0⟩ ≠ 0 := by
  rw [electricField_unitCharge_ex]
  intro h
  have hx := congrArg V3.x h
  simp only [V3.zero_x] at hx
  exact absurd hx (ne_of_gt kappa_pos)

theorem serialGather_length (sample : ℕ → PathSample) :
    ∀ (n i : ℕ) (acc : List PathSample),
      (serialGather sample n i acc).length = acc.length + n := by
  intro n
  induction n with
  | zero => intro i acc; simp [serialGather]
  | succ m ih =>
    intro i acc
    rw [serialGather, ih]
    simp
    omega

/-- C2 (evaluated at the failing input): for a single `+1` charge at the
origin and `p = (1,0,0)`, the code's `electricField` divides the Coulomb
superposition sum by `k = 1/(4π·ε)` — producing `(4πε, 0, 0)` — while the
spec's `k·Σ` value is `(1/(4πε), 0, 0)`; the two disagree. -/
theorem electricField_scale_bug :
    electricField unitCharge ⟨1, 0, 0⟩ = ⟨4 * Real.pi * PERM_SPACE, 0, 0⟩
      ∧ specField unitCharge ⟨1, 0, 0⟩ = ⟨1 / (4 * Real.pi * PERM_SPACE), 0, 0⟩
      ∧ electricField unitCharge ⟨1, 0, 0⟩ ≠ specField unitCharge ⟨1, 0, 0⟩ := by
  refine ⟨electricField_unitCharge_ex, specField_unitCharge_ex, ?_⟩
  rw [electricField_unitCharge_ex, specField_unitCharge_ex]
  intro h
  have hx := congrArg V3.x h
  simp only at hx
  rw [eq_div_iff (ne_of_gt kappa_pos)] at hx
  nlinarith [kappa_pos, kappa_lt_one]

/-- C4: every trace's `PathSample` is built as
`{(finalPosition - initialPosition).norm(), (curv(finalPosition) + curv(initialPosition)) / 2}`
where `finalPosition` is the loop's final position; in particular the
recorded distance is nonnegative. -/
theorem traceSample_fields (inside : V3 → Prop) (next : V3 → V3) (curv : V3 → ℝ)
    (maxSteps : ℤ) (initialPosition : V3) :
    (traceSample inside next curv maxSteps initialPosition).distance
        = ((sampleLoop inside next maxSteps 0 initialPosition).1 - initialPosition).norm
      ∧ (traceSample inside next curv maxSteps initialPosition).curvature
        = (curv (sampleLoop inside next maxSteps 0 initialPosition).1
            + curv initialPosition) / 2
      ∧ 0 ≤ (traceSample inside next curv maxSteps initialPosition).distance :=
  ⟨rfl, rfl, V3.norm_nonneg _⟩

/-- C5: at every point whose field is nonzero, `_curvature` returns
`‖tangent × tangentDerivative‖ / ‖tangent‖³` with `tangent = field(p)`,
`nextPoint = advance(p)`, `dt = ‖nextPoint − p‖/‖tangent‖` and
`tangentDerivative = (field(nextPoint) − tangent)/dt`. -/
theorem curvature_formula (pointCharges : List PointCharge) (stepLength : ℝ) (p : V3)
    (_hp : electricField pointCharges p ≠ 0) :
    curvature pointCharges stepLength p
      = (V3.cross (electricField pointCharges p)
          ((electricField pointCharges (advance pointCharges stepLength p)
              - electricField pointCharges p).vdiv
            ((advance pointCharges stepLength p - p).norm
              / (electricField pointCharges p).norm))).norm
        / (electricField pointCharges p).norm ^ 3 := by
  rw [pow_three, ← mul_assoc]
  rfl

/-- Witness for `curvature_formula`: the unit charge at the origin has a
nonzero field at `(1,0,0)`, where the theorem applies. -/
theorem curvature_formula_witness :
    electricField unitCharge ⟨1, 0, 0⟩ ≠ 0
      ∧ curvature unitCharge 1 ⟨1, 0, 0⟩
        = (V3.cross (electricField unitCharge ⟨1, 0, 0⟩)
            ((electricField unitCharge (advance unitCharge 1 ⟨1, 0, 0⟩)
                - electricField unitCharge ⟨1, 0, 0⟩).vdiv
              ((advance unitCharge 1 ⟨1, 0, 0⟩ - ⟨1, 0, 0⟩).norm
                / (electricField unitCharge ⟨1, 0, 0⟩).norm))).norm
          / (electricField unitCharge ⟨1, 0, 0⟩).norm ^ 3 :=
  ⟨electricField_unitCharge_ex_ne_zero,
    curvature_formula unitCharge 1 ⟨1, 0, 0⟩ electricField_unitCharge_ex_ne_zero⟩

/-- C6: `System`'s constructor returns a value exactly when `_loadOptions`
configured a region and the loaded charge list is non-empty; with an empty
charge set or a null region it throws before any sampling is possible. -/
theorem systemConstruct_ok_iff (lines : List OptionLine) (pointCharges : List PointCharge) :
    (∃ out, systemConstruct lines pointCharges = Except.ok out)
      ↔ (loadOptions lines).region ≠ none ∧ pointCharges ≠ [] := by
  rcases hr : (loadOptions lines).region with _ | r <;>
    rcases hp : pointCharges with _ | ⟨c, cs⟩ <;>
      simp [systemConstruct, hr, hp]

/-- C8: after `_loadOptions` completes, the third basis column is the
cross product of the first two, for every sequence of option lines. -/
theorem loadOptions_basis_cross (lines : List OptionLine) :
    (loadOptions lines).basisMatrix.col2
      = (loadOptions lines).basisMatrix.col0.cross (loadOptions lines).basisMatrix.col1 := rfl

/-- C9: with a configured sample count of 0 and `procs == 1`,
`calculateTopology` returns the empty sequence; the loop body — the only
place `_sample()` is called on this path — never runs, whatever results
the tracer would produce. -/
theorem calculateTopologySerial_zero (sample : ℕ → PathSample) :
    calculateTopologySerial 0 sample = [] := rfl

/-- C1 (evaluated at the failing input): with `_numberOfSamples = 1` the
serial path returns 2 elements — the vector is pre-sized with one
value-initialized element before one sampled element is appended — and
every parallel outcome likewise has 2 elements, not the requested 1. -/
theorem calculateTopology_count_bug :
    (calculateTopologySerial 1 fun _ => ⟨0, 0⟩).length = 2
      ∧ (∀ (numberOfSamples : ℕ) (sample : ℕ → PathSample),
          (calculateTopologySerial numberOfSamples sample).length = 2 * numberOfSamples)
      ∧ ∀ (numberOfSamples : ℕ) (res : List PathSample),
          parallelOutcome numberOfSamples res → res.length = 2 * numberOfSamples := by
  refine ⟨rfl, ?_, ?_⟩
  · intro numberOfSamples sample
    rw [calculateTopologySerial, serialGather_length]
    simp
    omega
  · rintro numberOfSamples res ⟨pushed, hlen, rfl⟩
    simp [hlen]
    omega

theorem sampleLoopGo_count_true (next : V3 → V3) :
    ∀ (fuel : ℕ) (maxSteps steps : ℤ) (p : V3), (maxSteps - steps).toNat < fuel →
      (sampleLoopGo (fun _ => True) next maxSteps fuel steps p).2.2
        = (maxSteps - 1 - steps).toNat := by
  intro fuel
  induction fuel with
  | zero =>
    intro ms steps p hf
    exact absurd hf (Nat.not_lt_zero _)
  | succ n ih =>
    intro ms steps p hf
    rw [sampleLoopGo]
    by_cases h1 : steps + 1 < ms
    · rw [if_pos trivial, if_pos h1]
      have hr := ih ms (steps + 1) (next p) (by omega)
      simp only [hr]
      omega
    · rw [if_pos trivial, if_neg h1]
      show (0 : ℕ) = (ms - 1 - steps).toNat
      omega

/-- C3 (amended): when the position stays inside the region for the whole
trace, the loop performs exactly `maxSteps − 1` integration steps for any
drawn bound `maxSteps ≥ 1` — the step counter is pre-incremented before
the bound comparison (`++steps < maxSteps`), so the body runs while
`isInside(position) ∧ steps + 1 < maxSteps`, one advance short of the
claimed `maxSteps`. -/
theorem sampleLoop_steps_always_inside (next : V3 → V3) (maxSteps : ℤ) (p : V3)
    (_h : 1 ≤ maxSteps) :
    (sampleLoop (fun _ => True) next maxSteps 0 p).2.2 = (maxSteps - 1).toNat := by
  have hc := sampleLoopGo_count_true next ((maxSteps - 0).toNat + 1) maxSteps 0 p
    (Nat.lt_succ_self _)
  simpa [sampleLoop] using hc

/-- Witness for `sampleLoop_steps_always_inside` at `maxSteps = 3`. -/
theorem sampleLoop_steps_always_inside_witness :
    1 ≤ (3 : ℤ)
      ∧ (sampleLoop (fun _ => True) id 3 0 (0 : V3)).2.2 = ((3 : ℤ) - 1).toNat :=
  ⟨by norm_num, sampleLoop_steps_always_inside id 3 0 (by norm_num)⟩

/-- C3 (counterexample to the claim as stated): with a region the path
never leaves and a drawn bound `maxSteps = 2`, the loop performs 1
integration step, not the 2 the claim requires. -/
theorem sampleLoop_steps_counterexample :
    (sampleLoop (fun _ => True) id 2 0 (0 : V3)).2.2 = 1
      ∧ (sampleLoop (fun _ => True) id 2 0 (0 : V3)).2.2 ≠ 2 := by
  have h1 : (sampleLoop (fun _ => True) id 2 0 (0 : V3)).2.2 = 1 := by
    have hc := sampleLoopGo_count_true id (((2 : ℤ) - 0).toNat + 1) 2 0 (0 : V3)
      (Nat.lt_succ_self _)
    simpa [sampleLoop] using hc
  exact ⟨h1, by rw [h1]; omega⟩

theorem sampleLoopGo_invariant (inside : V3 → Prop) (next : V3 → V3)
    (P : V3 → Prop) (hP : ∀ r, P r → P (next r)) :
    ∀ (fuel : ℕ) (maxSteps steps : ℤ) (p : V3), P p →
      P (sampleLoopGo inside next maxSteps fuel steps p).1 := by
  intro fuel
  induction fuel with
  | zero =>
    intro ms steps p hp
    exact hp
  | succ n ih =>
    intro ms steps p hp
    rw [sampleLoopGo]
    by_cases hin : inside p
    · by_cases h1 : steps + 1 < ms
      · rw [if_pos hin, if_pos h1]
        exact ih ms (steps + 1) (next p) (hP p hp)
      · rw [if_pos hin, if_neg h1]
        exact hp
    · rw [if_neg hin]
      exact hp

theorem sampleLoop_invariant (inside : V3 → Prop) (next : V3 → V3)
    (P : V3 → Prop) (hP : ∀ r, P r → P (next r))
    (maxSteps steps : ℤ) (p : V3) (hp : P p) :
    P (sampleLoop inside next maxSteps steps p).1 :=
  sampleLoopGo_invariant inside next P hP _ maxSteps steps p hp

theorem sampleLoopGo_final_cases (inside : V3 → Prop) (next : V3 → V3) :
    ∀ (fuel : ℕ) (maxSteps steps : ℤ) (p : V3),
      inside (sampleLoopGo inside next maxSteps fuel steps p).1
        ∨ (sampleLoopGo inside next maxSteps fuel steps p).1 = p
        ∨ ∃ r, inside r ∧ (sampleLoopGo inside next maxSteps fuel steps p).1 = next r := by
  intro fuel
  induction fuel with
  | zero =>
    intro ms steps p
    exact Or.inr (Or.inl rfl)
  | succ n ih =>
    intro ms steps p
    rw [sampleLoopGo]
    by_cases hin : inside p
    · by_cases h1 : steps + 1 < ms
      · rw [if_pos hin, if_pos h1]
        rcases ih ms (steps + 1) (next p) with hc | hc | ⟨r, hr, hc⟩
        · exact Or.inl hc
        · exact Or.inr (Or.inr ⟨p, hin, hc⟩)
        · exact Or.inr (Or.inr ⟨r, hr, hc⟩)
      · rw [if_pos hin, if_neg h1]
        exact Or.inl hin
    · rw [if_neg hin]
      exact Or.inr (Or.inl rfl)

theorem sampleLoop_final_cases (inside : V3 → Prop) (next : V3 → V3)
    (maxSteps steps : ℤ) (p : V3) :
    inside (sampleLoop inside next maxSteps steps p).1
      ∨ (sampleLoop inside next maxSteps steps p).1 = p
      ∨ ∃ r, inside r ∧ (sampleLoop inside next maxSteps steps p).1 = next r :=
  sampleLoopGo_final_cases inside next _ maxSteps steps p

theorem advance_unitCharge_of_ne {p : V3} (hp : p ≠ 0) (stepLength : ℝ) :
    advance unitCharge stepLength p = (1 + stepLength / p.norm) • p := by
  have hn : 0 < p.norm := V3.norm_pos_of_ne_zero hp
  have hc : 0 < 4 * Real.pi * PERM_SPACE * 1 / (p.norm * p.norm * p.norm) := by
    have := kappa_pos
    positivity
  rw [advance, show unitCharge = [{ coordinate := 0, charge := 1 }] from rfl,
    electricField_singleCharge_smul, V3.norm_smul_of_nonneg hc.le]
  ext <;>
    simp only [V3.add_x, V3.add_y, V3.add_z, V3.smul_x, V3.smul_y, V3.smul_z,
      V3.vdiv_x, V3.vdiv_y, V3.vdiv_z] <;>
    rw [mul_div_mul_left _ _ (ne_of_gt hc)] <;>
    field_simp <;>
    ring

theorem electricField_unitCharge_zero : electricField unitCharge 0 = 0 := by
  rw [show unitCharge = [{ coordinate := 0, charge := 1 }] from rfl,
    electricField_singleCharge]
  ext <;> simp

theorem advance_unitCharge_zero (stepLength : ℝ) : advance unitCharge stepLength 0 = 0 := by
  rw [advance, electricField_unitCharge_zero]
  ext <;> simp

theorem norm_advance_unitCharge {p : V3} (hp : p ≠ 0) {stepLength : ℝ} (hs : 0 ≤ stepLength) :
    (advance unitCharge stepLength p).norm = p.norm + stepLength := by
  have hn : 0 < p.norm := V3.norm_pos_of_ne_zero hp
  have hcoef : 0 ≤ 1 + stepLength / p.norm := by positivity
  rw [advance_unitCharge_of_ne hp, V3.norm_smul_of_nonneg hcoef]
  field_simp

/-- Radial invariant: along the unit-charge field, `advance` keeps every
point on the outgoing ray through the start point. -/
theorem advance_unitCharge_ray (stepLength : ℝ) (hs : 0 ≤ stepLength) (p0 : V3) :
    ∀ q : V3, (∃ μ : ℝ, 1 ≤ μ ∧ q = μ • p0) →
      ∃ μ : ℝ, 1 ≤ μ ∧ advance unitCharge stepLength q = μ • p0 := by
  rintro q ⟨μ, hμ, rfl⟩
  by_cases hp0 : p0 = 0
  · subst hp0
    refine ⟨1, le_refl 1, ?_⟩
    have hz : μ • (0 : V3) = 0 := by ext <;> simp
    rw [hz, advance_unitCharge_zero]
    ext <;> simp
  · have hμ0 : μ ≠ 0 := by intro h; rw [h] at hμ; norm_num at hμ
    have hq0 : μ • p0 ≠ 0 := V3.smul_ne_zero_iff hμ0 hp0
    rw [advance_unitCharge_of_ne hq0]
    have hnorm : 0 < (μ • p0).norm := V3.norm_pos_of_ne_zero hq0
    refine ⟨(1 + stepLength / (μ • p0).norm) * μ, ?_, ?_⟩
    · have hd : 0 ≤ stepLength / (μ • p0).norm := by positivity
      nlinarith
    · ext <;> simp <;> ring

theorem norm_le_of_boxInside {r : V3} (hr : boxInside r) : r.norm ≤ Real.sqrt 75 := by
  obtain ⟨hx, hy, hz⟩ := hr
  have h2 : r.norm2 ≤ 75 := by
    rw [V3.norm2]
    obtain ⟨hx1, hx2⟩ := abs_le.mp hx
    obtain ⟨hy1, hy2⟩ := abs_le.mp hy
    obtain ⟨hz1, hz2⟩ := abs_le.mp hz
    have hx5 : r.x ^ 2 ≤ 5 ^ 2 := sq_le_sq' hx1 hx2
    have hy5 : r.y ^ 2 ≤ 5 ^ 2 := sq_le_sq' hy1 hy2
    have hz5 : r.z ^ 2 ≤ 5 ^ 2 := sq_le_sq' hz1 hz2
    have h25 : (5 : ℝ) ^ 2 = 25 := by norm_num
    linarith [hx5, hy5, hz5]
  exact Real.sqrt_le_sqrt h2

theorem sqrt300_eq_two_sqrt75 : Real.sqrt 300 = 2 * Real.sqrt 75 := by
  rw [show (300 : ℝ) = 2 ^ 2 * 75 by norm_num,
    Real.sqrt_mul (by positivity), Real.sqrt_sq (by norm_num)]

/-- C7: in the scenario of one `+1` charge at the origin with a
`Box(10,10,10)` region, every trace's recorded distance is at most the
box's space diagonal `√300`, for every random draw of the start point
(inside the box) and of the step bound, for any configured step length
between `0` and `√75` (the step length is an external tunable the spec
leaves unspecified; one overshoot step of at most `√300 − √75 = √75` is
what the box geometry affords). -/
theorem traceSample_distance_le_diagonal (stepLength : ℝ) (maxSteps : ℤ) (p0 : V3)
    (hs0 : 0 ≤ stepLength) (hs1 : stepLength ≤ Real.sqrt 75) (hp0 : boxInside p0) :
    (traceSample boxInside (advance unitCharge stepLength)
        (curvature unitCharge stepLength) maxSteps p0).distance ≤ Real.sqrt 300 := by
  set q := (sampleLoop boxInside (advance unitCharge stepLength) maxSteps 0 p0).1 with hq_def
  show (q - p0).norm ≤ Real.sqrt 300
  have hray : ∃ μ : ℝ, 1 ≤ μ ∧ q = μ • p0 := by
    refine sampleLoop_invariant boxInside (advance unitCharge stepLength)
      (fun r => ∃ μ : ℝ, 1 ≤ μ ∧ r = μ • p0)
      (advance_unitCharge_ray stepLength hs0 p0)
      maxSteps 0 p0 ⟨1, le_refl 1, ?_⟩
    ext <;> simp
  obtain ⟨μ, hμ, hq⟩ := hray
  have hn0 : 0 ≤ p0.norm := V3.norm_nonneg p0
  have hqnorm : q.norm = μ * p0.norm := by
    rw [hq]; exact V3.norm_smul_of_nonneg (by linarith) p0
  have hdiff : q - p0 = (μ - 1) • p0 := by
    rw [hq]
    ext <;>
      simp only [V3.sub_x, V3.sub_y, V3.sub_z, V3.smul_x, V3.smul_y, V3.smul_z] <;>
      ring
  have hdist : (q - p0).norm = μ * p0.norm - p0.norm := by
    rw [hdiff, V3.norm_smul_of_nonneg (by linarith)]; ring
  have hdist_le : (q - p0).norm ≤ q.norm := by
    rw [hdist, hqnorm]; linarith
  have hcases := sampleLoop_final_cases boxInside (advance unitCharge stepLength)
    maxSteps 0 p0
  rw [← hq_def] at hcases
  have hqbound : q.norm ≤ Real.sqrt 75 + stepLength := by
    rcases hcases with hc | hc | ⟨r, hr, hc⟩
    · have h1 := norm_le_of_boxInside hc
      have h2 : 0 ≤ stepLength := hs0
      linarith
    · rw [hc]
      have h1 := norm_le_of_boxInside hp0
      linarith
    · by_cases hr0 : r = 0
      · subst hr0
        rw [hc, advance_unitCharge_zero]
        have hz : V3.norm 0 = 0 := by simp [V3.norm, V3.norm2]
        rw [hz]
        have := Real.sqrt_nonneg (75 : ℝ)
        linarith
      · rw [hc, norm_advance_unitCharge hr0 hs0]
        have h1 := norm_le_of_boxInside hr
        linarith
  rw [sqrt300_eq_two_sqrt75]
  linarith

/-- Witness for `traceSample_distance_le_diagonal`: step length `0`, the
origin as drawn start point, drawn bound `5`. -/
theorem traceSample_distance_le_diagonal_witness :
    (0 : ℝ) ≤ 0 ∧ (0 : ℝ) ≤ Real.sqrt 75 ∧ boxInside 0
      ∧ (traceSample boxInside (advance unitCharge 0) (curvature unitCharge 0) 5 0).distance
        ≤ Real.sqrt 300 :=
  ⟨le_refl 0, Real.sqrt_nonneg 75, by norm_num [boxInside],
    traceSample_distance_le_diagonal 0 5 0 (le_refl 0) (Real.sqrt_nonneg 75)
      (by norm_num [boxInside])⟩

/-- C10: streaming a `PathSample` appends exactly its distance, a single
comma and its curvature to the given stream, in that order with nothing
else; the original stream contents are preserved as a prefix and the
sample, taken by const reference, is untouched. -/
theorem pathSampleShift_output (os : List StreamItem) (ps : PathSample) :
    pathSampleShift os ps
      = os ++ [StreamItem.num ps.distance, StreamItem.ch ',', StreamItem.num ps.curvature] := by
  simp [pathSampleShift, writeDouble, writeChar]

end CPET
